import Mathlib

/-!
Verification of the micromatch core (src/index.js): the pattern-compilation,
caching, and multi-pattern resolution engine.

The embedding follows src/index.js.  External collaborators that the spec
declares out of scope (the glob-syntax translator `lib/expand`, the JS RegExp
engine, the path normalizer `lib/utils.unixify`, the `filename-regex` basename
extractor and the `arr-diff` set difference) are modelled from the spec and,
where theorems permit, abstracted as parameters.

JS option objects are modelled as association lists of string keys to `Val`
values, with JS truthiness.  Because `makeRe` both stores a *reference* to the
first options object it ever sees (`optsCache`) and mutates the caller's
options object (`opts.negated = ...`), options objects live in a heap indexed
by object ids, and the module-level mutable state (`globRe`, `cache`,
`optsCache`) is threaded explicitly as a `World`.
-/

/-- A JS primitive value as it appears in a micromatch options object. -/
inductive Val where
  | vBool (b : Bool)
  | vStr (s : String)
  | vNat (n : Nat)
deriving DecidableEq, Repr

/-- A JS options object: own enumerable properties as an association list. -/
abbrev Opts := List (String × Val)

/-- Property read (`o[k]`): first binding of the key, if any. -/
def getOpt : Opts → String → Option Val
  | [], _ => none
  | e :: rest, k => if e.1 = k then some e.2 else getOpt rest k

/-- JS truthiness of a possibly-absent property value. -/
def truthy : Option Val → Bool
  | none => false
  | some (Val.vBool b) => b
  | some (Val.vStr s) => !s.isEmpty
  | some (Val.vNat n) => n != 0

/-- Strict comparison `o[k] === true`. -/
def strictTrue (v : Option Val) : Bool :=
  v = some (Val.vBool true)

/-- Read `o[k] || ''` as a string (the `flags` option; non-strings give `""`). -/
def getStr (o : Opts) (k : String) : String :=
  match getOpt o k with
  | some (Val.vStr s) => s
  | _ => ""

/-- Property assignment `o[k] = v`: replace the binding in place, or append. -/
def setProp : Opts → String → Val → Opts
  | [], k, v => [(k, v)]
  | e :: rest, k, v => if e.1 = k then (k, v) :: rest else e :: setProp rest k v

/-- The `equal(a, b)` helper of src/index.js: every enumerable property of `b`
must exist on `a` with a `===`-equal value; extra properties of `a` are
ignored.  (`b` is always a truthy object at the call sites, so the `!b` guard
of the source is vacuous.) -/
def equal (a b : Opts) : Bool :=
  b.all (fun kv => (getOpt a kv.1).isSome && decide (getOpt a kv.1 = getOpt b kv.1))

/-- Modelled from the spec: the Path Normalizer (`lib/utils.unixify`), which is
not under src/.  Converts backslash separators to forward slashes; pure. -/
def uxy (s : String) : String :=
  String.mk (s.data.map (fun c => if c = '\\' then '/' else c))

/-- The source's `utils.unixify(fp, opts)` call shape; the options argument is
unused by the spec-modelled normalizer. -/
def unixify (fp : String) (_opts : Opts) : String :=
  uxy fp

/-- Modelled from the spec: the basename extractor (`filename-regex`,
`fileRe().exec(fp)`), which is an external dependency.  It returns the final
run of non-separator characters, and no match at all (JS `null`) when the
candidate has no extractable basename token. -/
def fileExec (s : String) : Option String :=
  let b := (s.data.reverse.takeWhile (fun c => c ≠ '/' ∧ c ≠ '\\')).reverse
  if b.isEmpty then none else some (String.mk b)

/-- First character test: JS `s.charAt(0) === c` / `s.charCodeAt(0) === 33`. -/
def firstCharIs (c : Char) (s : String) : Bool :=
  s.data.head? = some c

/-- JS `s.slice(1)`. -/
def strTail (s : String) : String :=
  String.mk (s.data.drop 1)

/-- Modelled from the spec: `arr-diff` (external dependency): the elements of
`a` that do not occur in `b`; an element of `b` removes every occurrence. -/
def listDiff (a b : List String) : List String :=
  a.filter (fun x => !b.contains x)

/-- Heap update at one object id. -/
def hset (h : Nat → Opts) (i : Nat) (o : Opts) : Nat → Opts :=
  fun j => if j = i then o else h j

/-- A compiled matcher: the final regex source string and its flags
(`new RegExp(glob, flags)`). -/
structure CompiledRegex where
  source : String
  flags : String
deriving DecidableEq, Repr

/-- The process-wide mutable state of src/index.js: the heap of options
objects plus the single-slot compilation cache (`globRe`, `cache`,
`optsCache`; the latter is a *reference* to an options object, hence an id). -/
structure World where
  heap : Nat → Opts
  optsCacheId : Option Nat
  cache : Option String
  globRe : Option CompiledRegex

/-- Modelled from the spec: the external collaborators consumed by the core.
`translate` is the glob-syntax translator (`lib/expand`): it returns the regex
source fragment and whether the glob syntax itself encodes negation.  `test`
is the JS RegExp engine: `new RegExp(source, flags).test(input)`. -/
structure Translator where
  translate : String → Opts → String × Bool
  test : String → String → String → Bool

/-- The `wrapGlob(glob, negate)` helper of src/index.js. -/
def wrapGlob (glob : String) (negate : Bool) : String :=
  let g := "(?:" ++ glob ++ ")$"
  "^" ++ (if negate then "(?!^" ++ g ++ ").*$" else g)

/-- Result of `makeRe`: the compiled regex, the updated world, and whether the
translator was actually invoked (false exactly on the cache-hit path). -/
structure MakeReOut where
  re : CompiledRegex
  world : World
  translated : Bool

/-- Result of the cache-maintenance phase of `makeRe` (source lines 209-228):
the adopted options-cache object id, the (possibly normalized) glob to
compile, the new cached glob string, and the surviving cached matcher if
any. -/
structure CacheStep where
  ocid : Nat
  glob2 : String
  cache3 : String
  hit : Option CompiledRegex

/-- The cache-maintenance phase of `makeRe`: adopt the options object into the
cache slot if the slot is empty; on an options change (per `equal`) drop the
cached matcher and adopt the glob; adopt the glob if none is cached; on a glob
change, normalize the glob and drop the cached matcher. -/
def makeReStep (w : World) (oid : Nat) (glob : String) : CacheStep :=
  let opts := w.heap oid
  let ocid := match w.optsCacheId with
    | none => oid
    | some j => j
  let st1 : Option String × Option CompiledRegex :=
    if equal (w.heap ocid) opts then (w.cache, w.globRe) else (some glob, none)
  let cache2 := match st1.1 with
    | none => glob
    | some c => c
  if cache2 = glob then ⟨ocid, glob, cache2, st1.2⟩
  else ⟨ocid, unixify glob opts, unixify glob opts, none⟩

/-- The `makeRe(glob, options)` function of src/index.js, with the options
object passed by id.  After the cache-maintenance phase, return the surviving
cached matcher if there is one; otherwise compute flags (`opts.flags || ''`
plus `'i'` under `nocase`), invoke the translator, update `opts.negated`
(mutating the caller's object: the old value if truthy, otherwise the
translator's negation flag), wrap with `wrapGlob`, compile and cache. -/
def makeRe (T : Translator) (w : World) (oid : Nat) (glob : String) : MakeReOut :=
  let opts := w.heap oid
  let flags := getStr opts "flags"
  let s := makeReStep w oid glob
  match s.hit with
  | some r => ⟨r, ⟨w.heap, some s.ocid, some s.cache3, some r⟩, false⟩
  | none =>
    let flags2 := flags ++ (if truthy (getOpt opts "nocase") then "i" else "")
    let parsed := T.translate s.glob2 opts
    let newNegVal : Val := match getOpt opts "negated" with
      | some v => if truthy (some v) then v else Val.vBool parsed.2
      | none => Val.vBool parsed.2
    let heap2 := hset w.heap oid (setProp opts "negated" newNegVal)
    let src := wrapGlob parsed.1 (truthy (some newNegVal))
    let r : CompiledRegex := ⟨src, flags2⟩
    ⟨r, ⟨heap2, some s.ocid, some s.cache3, some r⟩, true⟩

/-- The errors the core can raise: the explicit
`micromatch.match() expects a string or array.` throw, and the implicit JS
TypeError from `matches[0]` when basename extraction yields no match. -/
inductive JsError where
  | invalidInput
  | typeError
deriving DecidableEq, Repr

/-- A pattern argument to `isMatch`: a glob string or an already compiled
RegExp. -/
inductive RePat where
  | glob (g : String)
  | re (r : CompiledRegex)

/-- The body of `isMatch(fp, pattern, opts)` once the pattern is compiled:
under `matchBase`, extract the basename (throwing when extraction yields no
match), return true if the basename tests true, otherwise fall through to the
full-path test. -/
def isMatchRe (T : Translator) (fp : String) (r : CompiledRegex) (opts : Opts) :
    Except JsError Bool :=
  if truthy (getOpt opts "matchBase") then
    match fileExec fp with
    | none => Except.error JsError.typeError
    | some m =>
      if T.test r.source r.flags m then Except.ok true
      else Except.ok (T.test r.source r.flags fp)
  else Except.ok (T.test r.source r.flags fp)

/-- The `isMatch(fp, pattern, opts)` function of src/index.js: compile the
pattern if it is not already a RegExp, then test. -/
def isMatch (T : Translator) (w : World) (fp : String) (pat : RePat) (oid : Nat) :
    Except JsError (Bool × World) :=
  let cw : CompiledRegex × World := match pat with
    | RePat.re r => (r, w)
    | RePat.glob g =>
      let m := makeRe T w oid g
      (m.re, m.world)
  match isMatchRe T fp cw.1 (cw.2.heap oid) with
  | Except.error e => Except.error e
  | Except.ok b => Except.ok (b, cw.2)

/-- The candidates argument of `match`: a string, an array of strings, or
anything else (which triggers the InvalidInputKind throw). -/
inductive FilesArg where
  | fstr (s : String)
  | farr (xs : List String)
  | other

/-- The `utils.arrayify` helper (trivial, out of scope per the spec): a single
string becomes a one-element sequence.  Only reached after the type check, so
the `other` case is never used. -/
def arrayify : FilesArg → List String
  | FilesArg.fstr s => [s]
  | FilesArg.farr xs => xs
  | FilesArg.other => []

/-- The result of `match`: a list of candidates, or (under `nonull` with no
matches) the compiled pattern itself. -/
inductive MatchResult where
  | files (xs : List String)
  | re (r : CompiledRegex)
deriving DecidableEq, Repr

/-- The candidate loop of `match`: normalize each candidate, keep the
normalized form of those that match; a thrown error aborts the whole call. -/
def matchLoop (T : Translator) (r : CompiledRegex) (opts : Opts) :
    List String → Except JsError (List String)
  | [] => Except.ok []
  | f :: rest =>
    let fp := unixify f opts
    match isMatchRe T fp r opts with
    | Except.error e => Except.error e
    | Except.ok true =>
      match matchLoop T r opts rest with
      | Except.error e => Except.error e
      | Except.ok xs => Except.ok (fp :: xs)
    | Except.ok false => matchLoop T r opts rest

/-- The single-pattern negation decision of `match` (source lines 73-80): when
`nonegate` is not strictly true, a leading `!` — stripped before compilation —
overrides the `negate` option; otherwise `negate` is used verbatim. -/
def negatePat (opts : Opts) (pattern : String) : Bool × String :=
  if strictTrue (getOpt opts "nonegate") then (truthy (getOpt opts "negate"), pattern)
  else
    (firstCharIs '!' pattern,
     if firstCharIs '!' pattern then strTail pattern else pattern)

/-- The result selection of `match` after the candidate loop (source lines
98-103): on negation, `diff(files, res)`; under `nonull` with an empty result,
the compiled pattern itself; otherwise the kept candidates. -/
def matchPost (fs res : List String) (negate : Bool) (re : CompiledRegex)
    (nonull : Bool) : MatchResult :=
  if negate then MatchResult.files (listDiff fs res)
  else if nonull && res.isEmpty then MatchResult.re re
  else MatchResult.files res

/-- The `match(files, pattern, opts)` function of src/index.js: throw unless
the candidates are a string or an array; determine single-pattern negation;
compile; run the candidate loop; select the result. -/
def matchFn (T : Translator) (w : World) (files : FilesArg) (pattern : String)
    (oid : Nat) : Except JsError (MatchResult × World) :=
  match files with
  | FilesArg.other => Except.error JsError.invalidInput
  | _ =>
    let fs := arrayify files
    let np := negatePat (w.heap oid) pattern
    let m := makeRe T w oid np.2
    let opts1 := m.world.heap oid
    match matchLoop T m.re opts1 fs with
    | Except.error e => Except.error e
    | Except.ok res =>
      Except.ok (matchPost fs res np.1 m.re (truthy (getOpt opts1 "nonull")), m.world)

/-- The patterns argument of the Multi-Pattern Resolver: a single string or a
sequence of pattern strings. -/
inductive PatternsArg where
  | pstr (s : String)
  | parr (ps : List String)

/-- JS falsiness of the candidates argument (an empty string is falsy; arrays
are always truthy). -/
def filesFalsy : Option (String ⊕ List String) → Bool
  | none => true
  | some (Sum.inl s) => s.isEmpty
  | some (Sum.inr _) => false

/-- JS falsiness of the patterns argument. -/
def patsFalsy : Option PatternsArg → Bool
  | none => true
  | some (PatternsArg.pstr s) => s.isEmpty
  | some (PatternsArg.parr _) => false

/-- The strings a `match` result contributes to an accumulator via
`push.apply`: a RegExp result (the `nonull` escape hatch) is not array-like,
so it contributes nothing. -/
def strsOf : MatchResult → List String
  | MatchResult.files xs => xs
  | MatchResult.re _ => []

/-- The pattern loop of `micromatch`: a leading `!` routes the stripped
pattern's matches into the negative accumulator, everything else into the
positive accumulator. -/
def mmLoop (T : Translator) (fs : List String) (oid : Nat) :
    World → List String → List String → List String →
    Except JsError ((List String × List String) × World)
  | w, [], res, neg => Except.ok ((res, neg), w)
  | w, g :: rest, res, neg =>
    if firstCharIs '!' g then
      match matchFn T w (FilesArg.farr fs) (strTail g) oid with
      | Except.error e => Except.error e
      | Except.ok (mr, w') => mmLoop T fs oid w' rest res (neg ++ strsOf mr)
    else
      match matchFn T w (FilesArg.farr fs) g oid with
      | Except.error e => Except.error e
      | Except.ok (mr, w') => mmLoop T fs oid w' rest (res ++ strsOf mr) neg

/-- The main `micromatch(files, patterns, opts)` function of src/index.js:
return `[]` on a falsy argument; arrayify the candidates; delegate a single
string pattern to `match`; otherwise run the pattern loop and return the
positive accumulator minus the negative one.  (Candidates are strings or
arrays of strings here; a non-string non-array reaches `match` only when
`match` is called directly.) -/
def micromatch (T : Translator) (w : World) (files : Option (String ⊕ List String))
    (pats : Option PatternsArg) (oid : Nat) : Except JsError (MatchResult × World) :=
  if filesFalsy files || patsFalsy pats then Except.ok (MatchResult.files [], w)
  else
    match pats with
    | none => Except.ok (MatchResult.files [], w)
    | some p =>
      let fs : List String := match files with
        | some (Sum.inl s) => [s]
        | some (Sum.inr xs) => xs
        | none => []
      match p with
      | PatternsArg.pstr s => matchFn T w (FilesArg.farr fs) s oid
      | PatternsArg.parr ps =>
        match mmLoop T fs oid w ps [] [] with
        | Except.error e => Except.error e
        | Except.ok (rn, w') =>
          Except.ok (MatchResult.files (listDiff rn.1 rn.2), w')

/-- The per-pattern contributions of a pattern list, as the spec describes the
Multi-Pattern Resolver: for each pattern in order, whether it is
list-level-negated (leading `!`) and the strings its `match` call (on the
`!`-stripped remainder) contributes. -/
def mmOuts (T : Translator) (fs : List String) (oid : Nat) :
    World → List String → Except JsError (List (Bool × List String) × World)
  | w, [] => Except.ok ([], w)
  | w, g :: rest =>
    let bang := firstCharIs '!' g
    match matchFn T w (FilesArg.farr fs) (if bang then strTail g else g) oid with
    | Except.error e => Except.error e
    | Except.ok (mr, w') =>
      (mmOuts T fs oid w' rest).map (fun lw => ((bang, strsOf mr) :: lw.1, lw.2))

/-- The positive accumulator: contributions of the non-negated patterns, in
order. -/
def posAcc (l : List (Bool × List String)) : List String :=
  ((l.filter (fun p => !p.1)).map (fun p => p.2)).flatten

/-- The negative accumulator: contributions of the `!`-prefixed patterns, in
order. -/
def negAcc (l : List (Bool × List String)) : List String :=
  ((l.filter (fun p => p.1)).map (fun p => p.2)).flatten

/-- The compiled matcher a pure translator (fragment `f g`, never
syntax-negated) yields for a glob, given the options values at the start of a
run: the `negated` wrap is fixed by the initial options and the flags never
change. -/
def regexOfP (f : String → String) (O : Opts) (g : String) : CompiledRegex :=
  ⟨wrapGlob (f g) (truthy (getOpt O "negated")),
   getStr O "flags" ++ (if truthy (getOpt O "nocase") then "i" else "")⟩

/-- The pure boolean a successful `isMatch` computes for a normalized
candidate (basename test first under `matchBase`, then the full path). -/
def isMatchOkP (T : Translator) (r : CompiledRegex) (O : Opts) (fp : String) : Bool :=
  if truthy (getOpt O "matchBase") then
    match fileExec fp with
    | none => false
    | some m => T.test r.source r.flags m || T.test r.source r.flags fp
  else T.test r.source r.flags fp

/-- Whether the candidate loop throws: `matchBase` is set and some candidate
normalizes to a string with no extractable basename token. -/
def loopErr (O : Opts) (fs : List String) : Bool :=
  truthy (getOpt O "matchBase") && fs.any (fun fl => (fileExec (uxy fl)).isNone)

/-- The pure value a successful `match` call computes under a pure translator,
as a function of the pattern alone (plus the run-initial options and
candidates). -/
def pureMatchOk (T : Translator) (f : String → String) (O : Opts) (fs : List String)
    (p : String) : MatchResult :=
  let np := negatePat O p
  let r := regexOfP f O np.2
  matchPost fs ((fs.map uxy).filter (isMatchOkP T r O)) np.1 r
    (truthy (getOpt O "nonull"))

/-- The pure result of one `match` call under a pure translator. -/
def pureMatchP (T : Translator) (f : String → String) (O : Opts) (fs : List String)
    (p : String) : Except JsError MatchResult :=
  if loopErr O fs then Except.error JsError.typeError
  else Except.ok (pureMatchOk T f O fs p)

/-- The run invariant for the order-independence argument: the options object
differs from its run-initial value `O` at most in the `negated` field, whose
truthiness is unchanged; the cache slot holds this object (or nothing); and
any cached matcher is the pure compilation of the cached glob. -/
def RunInv (f : String → String) (O : Opts) (oid : Nat) (w : World) : Prop :=
  (∀ k, k ≠ "negated" → getOpt (w.heap oid) k = getOpt O k) ∧
  truthy (getOpt (w.heap oid) "negated") = truthy (getOpt O "negated") ∧
  (w.optsCacheId = none ∨ w.optsCacheId = some oid) ∧
  (∀ r, w.globRe = some r → ∃ g, w.cache = some g ∧ r = regexOfP f O g)

/-- The pure per-pattern contributions of a whole pattern list under a pure
translator. -/
def pureOutsP (T : Translator) (f : String → String) (O : Opts) (fs : List String) :
    List String → Except JsError (List (Bool × List String))
  | [] => Except.ok []
  | g :: rest =>
    let bang := firstCharIs '!' g
    match pureMatchP T f O fs (if bang then strTail g else g) with
    | Except.error e => Except.error e
    | Except.ok mr =>
      (pureOutsP T f O fs rest).map (fun l => (bang, strsOf mr) :: l)

/-- Modelled from the spec: the JS RegExp engine restricted to the two
anchored source shapes `wrapGlob` produces over literal fragments — the
positive wrap matches exactly the fragment, the negated wrap matches exactly
the strings that differ from it (flags ignored). -/
def litTest (src : String) (_flags : String) (inp : String) : Bool :=
  if src.data.take 8 = ['^', '(', '?', '!', '^', '(', '?', ':'] then
    let mid := src.data.drop 8
    decide (inp.data ≠ mid.take (mid.length - 6))
  else
    let mid := src.data.drop 4
    decide (inp.data = mid.take (mid.length - 2))

/-- Modelled from the spec and makeRe's own doc comment: a literal-glob
translator — a leading `!` encodes negation and is stripped, and the fragment
is the remaining glob verbatim. -/
def litT : Translator :=
  ⟨fun g _ => if firstCharIs '!' g then (strTail g, true) else (g, false), litTest⟩

/-- A pure translator whose fragment ignores both the glob and the options:
used to witness the order-independence theorem. -/
def constT : Translator :=
  ⟨fun _ _ => ("Z", false), litTest⟩

/-- A fresh world: empty options everywhere, nothing cached. -/
def w0 : World := ⟨fun _ => [], none, none, none⟩

/-- A fresh world whose options objects all carry `negate: true`. -/
def wNegate : World := ⟨fun _ => [("negate", Val.vBool true)], none, none, none⟩

/-- A fresh world whose options objects all carry `nonull: true`. -/
def wNonull : World := ⟨fun _ => [("nonull", Val.vBool true)], none, none, none⟩

/-- A fresh world whose options objects all carry `matchBase: true`. -/
def wMB : World := ⟨fun _ => [("matchBase", Val.vBool true)], none, none, none⟩

/-- A fresh world whose options objects all carry `nonegate: true`. -/
def wNonegate : World := ⟨fun _ => [("nonegate", Val.vBool true)], none, none, none⟩

/-- A world with a populated compilation cache: cached glob `"g"`, cached
matcher `⟨"R", "F"⟩`, cached options object id `0` (empty options). -/
def wPop : World := ⟨fun _ => [], some 0, some "g", some ⟨"R", "F"⟩⟩

/-- A fresh world whose options objects all carry `nonegate: true` and
`negate: true`. -/
def wNN : World :=
  ⟨fun _ => [("nonegate", Val.vBool true), ("negate", Val.vBool true)], none, none, none⟩

/-! ## Helper lemmas -/

/-- Reading another key through a property assignment is unchanged. -/
theorem getOpt_setProp_ne (o : Opts) (k k' : String) (v : Val) (h : k' ≠ k) :
    getOpt (setProp o k v) k' = getOpt o k' := by
  induction o with
  | nil => simp [setProp, getOpt, Ne.symm h]
  | cons e rest ih =>
    by_cases he : e.1 = k
    · simp [setProp, getOpt, he, Ne.symm h]
    · by_cases he' : e.1 = k'
      · simp [setProp, getOpt, he, he', h]
      · simp [setProp, getOpt, he, he', ih]

/-- Reading the assigned key gives the assigned value. -/
theorem getOpt_setProp_self (o : Opts) (k : String) (v : Val) :
    getOpt (setProp o k v) k = some v := by
  induction o with
  | nil => simp [setProp, getOpt]
  | cons e rest ih =>
    by_cases he : e.1 = k
    · simp [setProp, getOpt, he]
    · simp [setProp, getOpt, he, ih]

/-- The source's `equal` is reflexive: an options object never invalidates
against itself. -/
theorem equal_refl (o : Opts) : equal o o = true := by
  have key : ∀ (a : Opts) (kv : String × Val), kv ∈ a → (getOpt a kv.1).isSome = true := by
    intro a
    induction a with
    | nil => intro kv hkv; cases hkv
    | cons e rest ih =>
      intro kv hkv
      by_cases he : e.1 = kv.1
      · simp [getOpt, he]
      · cases hkv with
        | head => exact absurd rfl he
        | tail _ hm => simp [getOpt, he, ih kv hm]
  unfold equal
  rw [List.all_eq_true]
  intro kv hkv
  simp [key o kv hkv]

/-- makeRe touches no options object other than its own, and of its own object
only the `negated` property. -/
theorem makeRe_heap_frame (T : Translator) (w : World) (oid : Nat) (glob : String) :
    (∀ j, j ≠ oid → (makeRe T w oid glob).world.heap j = w.heap j) ∧
    (∀ k, k ≠ "negated" →
      getOpt ((makeRe T w oid glob).world.heap oid) k = getOpt (w.heap oid) k) := by
  constructor
  · intro j hj
    cases h : (makeReStep w oid glob).hit with
    | some r => simp [makeRe, h]
    | none => simp [makeRe, h, hset, hj]
  · intro k hk
    cases h : (makeReStep w oid glob).hit with
    | some r => simp [makeRe, h]
    | none =>
      simp only [makeRe, h, hset, if_pos rfl]
      exact getOpt_setProp_ne _ _ _ _ hk

/-- Characterization of the cache-maintenance phase when the cache slot is
populated: an options mismatch, or a glob mismatch, drops the cached matcher;
only a glob identical to the cached one with matching options lets it
survive. -/
theorem makeReStep_pop (w : World) (oid : Nat) (glob : String) (j : Nat) (c : String)
    (hj : w.optsCacheId = some j) (hc : w.cache = some c) :
    makeReStep w oid glob =
      if equal (w.heap j) (w.heap oid) then
        (if c = glob then ⟨j, glob, c, w.globRe⟩
         else ⟨j, unixify glob (w.heap oid), unixify glob (w.heap oid), none⟩)
      else ⟨j, glob, glob, none⟩ := by
  by_cases he : equal (w.heap j) (w.heap oid)
  · by_cases hg : c = glob <;> simp [makeReStep, hj, hc, he, hg]
  · simp [makeReStep, hj, hc, he]

/-! ## Claim theorems -/

/-- C9: the Pattern Compiler's anchoring step produces exactly
`'^(?:' + f + ')$'` for a non-negated fragment and exactly
`'^(?!^(?:' + f + ')$).*$'` for a negated one. -/
theorem c9_wrapGlob_anchoring (f : String) :
    wrapGlob f false = "^(?:" ++ f ++ ")$" ∧
    wrapGlob f true = "^(?!^(?:" ++ f ++ ")$).*$" := by
  constructor
  · show "^" ++ ("(?:" ++ f ++ ")$") = "^(?:" ++ f ++ ")$"
    rw [show ("^(?:" : String) = "^" ++ "(?:" from rfl]
    rw [String.append_assoc, String.append_assoc, String.append_assoc]
  · show "^" ++ ("(?!^" ++ ("(?:" ++ f ++ ")$") ++ ").*$") = "^(?!^(?:" ++ f ++ ")$).*$"
    rw [show ("^(?!^(?:" : String) = "^" ++ ("(?!^" ++ "(?:") from rfl]
    rw [show (")$).*$" : String) = ")$" ++ ").*$" from rfl]
    simp only [String.append_assoc]

/-- C2: once a prior compilation has populated the single-slot cache, a
`makeRe` call returns the cached matcher without re-invoking the translator
exactly when the new glob is identical to the cached glob string and every
enumerable property of the new options object has the same value on the
cached options object (the one-way `equal` comparison). -/
theorem c2_cache_reuse (T : Translator) (w : World) (oid : Nat) (glob : String)
    (j : Nat) (c : String) (r : CompiledRegex)
    (hj : w.optsCacheId = some j) (hc : w.cache = some c) (hr : w.globRe = some r) :
    ((makeRe T w oid glob).translated = false ↔
      glob = c ∧ equal (w.heap j) (w.heap oid) = true) ∧
    (glob = c ∧ equal (w.heap j) (w.heap oid) = true →
      (makeRe T w oid glob).re = r) := by
  have hstep := makeReStep_pop w oid glob j c hj hc
  by_cases he : equal (w.heap j) (w.heap oid)
  · by_cases hg : c = glob
    · rw [if_pos he, if_pos hg, hr] at hstep
      subst hg
      constructor
      · simp [makeRe, hstep, he]
      · intro _
        simp [makeRe, hstep]
    · rw [if_pos he, if_neg hg] at hstep
      have ht : (makeRe T w oid glob).translated = true := by simp [makeRe, hstep]
      constructor
      · rw [ht]
        constructor
        · intro h
          cases h
        · rintro ⟨h1, _⟩
          exact absurd h1.symm hg
      · rintro ⟨h1, _⟩
        exact absurd h1.symm hg
  · rw [if_neg he] at hstep
    have ht : (makeRe T w oid glob).translated = true := by simp [makeRe, hstep]
    constructor
    · rw [ht]
      constructor
      · intro h
        cases h
      · rintro ⟨_, h2⟩
        exact absurd h2 he
    · rintro ⟨_, h2⟩
      exact absurd h2 he

/-- Witness for C2 at a concrete populated cache. -/
theorem c2_cache_reuse_witness :
    (makeRe litT wPop 1 "g").translated = false ∧ (makeRe litT wPop 1 "g").re = ⟨"R", "F"⟩ := by
  have h := c2_cache_reuse litT wPop 1 "g" 0 "g" ⟨"R", "F"⟩ rfl rfl rfl
  exact ⟨h.1.mpr ⟨rfl, by decide⟩, h.2 ⟨rfl, by decide⟩⟩

/-- One step of the candidate test: an error exactly on basename-extraction
failure under `matchBase`, otherwise the pure test `isMatchOkP`. -/
theorem isMatchRe_eq (T : Translator) (r : CompiledRegex) (opts : Opts) (fp : String) :
    isMatchRe T fp r opts =
      if truthy (getOpt opts "matchBase") && (fileExec fp).isNone then
        Except.error JsError.typeError
      else Except.ok (isMatchOkP T r opts fp) := by
  unfold isMatchRe isMatchOkP
  by_cases hmb : truthy (getOpt opts "matchBase")
  · cases hfe : fileExec fp with
    | none => simp [hmb, hfe]
    | some m => by_cases htm : T.test r.source r.flags m <;> simp [hmb, hfe, htm]
  · simp [hmb]

/-- The candidate loop errors exactly when `matchBase` is set and some
candidate normalizes to a string with no basename token; otherwise it returns
the normalized candidates that pass the pure test. -/
theorem matchLoop_eq (T : Translator) (r : CompiledRegex) (opts : Opts) (fs : List String) :
    matchLoop T r opts fs =
      if truthy (getOpt opts "matchBase") && fs.any (fun fl => (fileExec (uxy fl)).isNone) then
        Except.error JsError.typeError
      else Except.ok ((fs.map uxy).filter (isMatchOkP T r opts)) := by
  induction fs with
  | nil => simp [matchLoop]
  | cons f rest ih =>
    simp only [matchLoop, unixify, isMatchRe_eq]
    by_cases hmb : truthy (getOpt opts "matchBase")
    · by_cases hfe : (fileExec (uxy f)).isNone
      · simp [hmb, hfe]
      · rw [ih]
        by_cases herr : rest.any (fun fl => (fileExec (uxy fl)).isNone)
        · by_cases hk : isMatchOkP T r opts (uxy f) <;>
            simp [hmb, hfe, herr, hk]
        · by_cases hk : isMatchOkP T r opts (uxy f) <;>
            simp [hmb, hfe, herr, hk]
    · rw [ih]
      by_cases hk : isMatchOkP T r opts (uxy f) <;> simp [hmb, hk]

/-- Every error of `match` is either the InvalidInputKind throw (exactly for a
non-string, non-array candidates argument) or the `matchBase` basename
TypeError. -/
theorem matchFn_error_char (T : Translator) (w : World) (files : FilesArg) (p : String)
    (oid : Nat) (e : JsError) (h : matchFn T w files p oid = Except.error e) :
    (e = JsError.invalidInput ∧ files = FilesArg.other) ∨
    (e = JsError.typeError ∧ truthy (getOpt (w.heap oid) "matchBase") = true) := by
  cases files with
  | other =>
    left
    refine ⟨?_, rfl⟩
    simp [matchFn] at h
    exact h.symm
  | fstr s =>
    right
    simp only [matchFn, matchLoop_eq] at h
    split at h
    · next hc =>
      split at hc
      · next hcond =>
        cases hc
        cases h
        rw [Bool.and_eq_true] at hcond
        have hfr := (makeRe_heap_frame T w oid
          (negatePat (w.heap oid) p).2).2 "matchBase" (by decide)
        refine ⟨rfl, ?_⟩
        rw [← hfr]
        exact hcond.1
      · cases hc
    · cases h
  | farr xs =>
    right
    simp only [matchFn, matchLoop_eq] at h
    split at h
    · next hc =>
      split at hc
      · next hcond =>
        cases hc
        cases h
        rw [Bool.and_eq_true] at hcond
        have hfr := (makeRe_heap_frame T w oid
          (negatePat (w.heap oid) p).2).2 "matchBase" (by decide)
        refine ⟨rfl, ?_⟩
        rw [← hfr]
        exact hcond.1
      · cases hc
    · cases h

/-- C8 (amended): `match` raises InvalidInputKind exactly when its candidates
argument is neither a string nor an array; any other error it raises is the
`matchBase` basename TypeError, which requires `matchBase` to be set. -/
theorem c8_error_kinds (T : Translator) (w : World) (files : FilesArg) (p : String)
    (oid : Nat) :
    (matchFn T w files p oid = Except.error JsError.invalidInput ↔
      files = FilesArg.other) ∧
    (∀ e, matchFn T w files p oid = Except.error e →
      e = JsError.invalidInput ∨
      (e = JsError.typeError ∧ truthy (getOpt (w.heap oid) "matchBase") = true)) := by
  constructor
  · constructor
    · intro h
      rcases matchFn_error_char T w files p oid JsError.invalidInput h with h' | h'
      · exact h'.2
      · cases h'.1
    · intro h
      subst h
      rfl
  · intro e h
    rcases matchFn_error_char T w files p oid e h with h' | h'
    · exact Or.inl h'.1
    · exact Or.inr h'

/-- Witness for C8 (amended) at a concrete non-string, non-array input. -/
theorem c8_error_kinds_witness :
    matchFn litT w0 FilesArg.other "x" 0 = Except.error JsError.invalidInput :=
  (c8_error_kinds litT w0 FilesArg.other "x" 0).1.mpr rfl

/-- C8 counterexample: with `matchBase` set and a candidate with no basename
token, `match` on a perfectly valid array of strings raises the basename
TypeError — so InvalidInputKind is not the only error the core raises. -/
theorem c8_counterexample :
    matchFn litT wMB (FilesArg.farr [""]) "x" 0 = Except.error JsError.typeError ∧
    JsError.typeError ≠ JsError.invalidInput :=
  ⟨rfl, by decide⟩

/-- Subtracting the matching candidates from the candidate list keeps exactly
the non-matching ones. -/
theorem listDiff_filter (fs : List String) (q : String → Bool) :
    listDiff fs (fs.filter q) = fs.filter (fun x => !q x) := by
  unfold listDiff
  apply List.filter_congr
  intro x hx
  by_cases hq : q x = true
  · have : x ∈ fs.filter q := List.mem_filter.mpr ⟨hx, hq⟩
    simp [List.elem_iff.mpr this, hq, hx]
  · have : ¬x ∈ fs.filter q := fun hm => hq (List.mem_filter.mp hm).2
    have hne : (fs.filter q).contains x = false := by
      rw [← Bool.not_eq_true]
      intro hcon
      exact this (List.elem_iff.mp hcon)
    simp [hne, hq]

/-- C4 (amended): the `negate` option forces negated matching only when
`nonegate` is strictly true (the source then skips `!`-detection and keeps
`negate`); the pattern is compiled unstripped, and the result is exactly the
candidates that do not test against the compiled matcher. -/
theorem c4_negate_with_nonegate (T : Translator) (w : World) (fs : List String)
    (p : String) (oid : Nat)
    (hne : getOpt (w.heap oid) "nonegate" = some (Val.vBool true))
    (hneg : truthy (getOpt (w.heap oid) "negate") = true)
    (hmb : truthy (getOpt (w.heap oid) "matchBase") = false)
    (hux : ∀ f ∈ fs, uxy f = f) :
    matchFn T w (FilesArg.farr fs) p oid =
      Except.ok (MatchResult.files (fs.filter (fun f =>
          !T.test (makeRe T w oid p).re.source (makeRe T w oid p).re.flags f)),
        (makeRe T w oid p).world) := by
  have hnp : negatePat (w.heap oid) p = (true, p) := by
    simp [negatePat, strictTrue, hne, hneg]
  have hmb1 : truthy (getOpt ((makeRe T w oid p).world.heap oid) "matchBase") = false := by
    rw [(makeRe_heap_frame T w oid p).2 "matchBase" (by decide)]
    exact hmb
  have hmap : fs.map uxy = fs := by
    rw [show fs.map uxy = fs.map id from List.map_congr_left hux, List.map_id]
  simp only [matchFn, hnp, matchLoop_eq, arrayify, hmb1, Bool.false_and,
    Bool.and_self, if_neg (by simp : ¬(false = true)), hmap]
  have hfil : (fs.filter (isMatchOkP T (makeRe T w oid p).re
      ((makeRe T w oid p).world.heap oid))) =
      fs.filter (fun f =>
        T.test (makeRe T w oid p).re.source (makeRe T w oid p).re.flags f) := by
    apply List.filter_congr
    intro x _
    simp [isMatchOkP, hmb1]
  rw [hfil]
  simp [matchPost, listDiff_filter]

/-- C4 counterexample: with `negate: true` and `nonegate` absent, the claim
predicts negated matching — `match(['a'], 'b')` would return `['a']` (the
candidates not matching `'b'`).  The code instead discards `negate` (the
`!`-detection branch reassigns it from the pattern's first character) and
returns `[]`. -/
theorem c4_counterexample :
    (matchFn litT wNegate (FilesArg.farr ["a"]) "b" 0).map (fun pr => pr.1) =
      Except.ok (MatchResult.files []) ∧
    MatchResult.files [] ≠ MatchResult.files ["a"] :=
  ⟨rfl, by decide⟩

/-- Witness for C4 (amended) at a concrete input: with `nonegate: true` and
`negate: true`, matching `'a'` against `['a', 'b']` keeps the non-matching
candidate. -/
theorem c4_negate_with_nonegate_witness :
    matchFn litT wNN (FilesArg.farr ["a", "b"]) "a" 0 =
      Except.ok (MatchResult.files ((["a", "b"] : List String).filter (fun f =>
          !litT.test (makeRe litT wNN 0 "a").re.source (makeRe litT wNN 0 "a").re.flags f)),
        (makeRe litT wNN 0 "a").world) :=
  c4_negate_with_nonegate litT wNN ["a", "b"] "a" 0 (by decide) (by decide) (by decide)
    (by decide)

/-- C5 (amended): whenever every candidate is unchanged by separator
normalization, every list result of `match` is a sublist of the candidates:
only elements of `C`, in their original relative order, duplicates
preserved.  (In general the non-negated result consists of the *normalized*
candidates, see the counterexample.) -/
theorem c5_result_sublist (T : Translator) (w : World) (fs : List String) (p : String)
    (oid : Nat) (out : List String) (w' : World)
    (hux : ∀ f ∈ fs, uxy f = f)
    (h : matchFn T w (FilesArg.farr fs) p oid = Except.ok (MatchResult.files out, w')) :
    out.Sublist fs := by
  have hmap : fs.map uxy = fs := by
    rw [show fs.map uxy = fs.map id from List.map_congr_left hux, List.map_id]
  simp only [matchFn, matchLoop_eq, arrayify, hmap] at h
  split at h
  · cases h
  · next res heq =>
    split at heq
    · cases heq
    · cases heq
      simp only [matchPost] at h
      split at h
      · simp only [Except.ok.injEq, Prod.mk.injEq, MatchResult.files.injEq] at h
        rw [← h.1]
        unfold listDiff
        exact List.filter_sublist fs
      · split at h
        · simp at h
        · simp only [Except.ok.injEq, Prod.mk.injEq, MatchResult.files.injEq] at h
          rw [← h.1]
          exact List.filter_sublist fs

/-- C5 counterexample: a candidate containing a backslash is returned in
*normalized* form — `match(['a\\b'], 'a/b')` returns `['a/b']`, which is not
an element of the input collection. -/
theorem c5_counterexample :
    (matchFn litT w0 (FilesArg.farr ["a\\b"]) "a/b" 0).map (fun pr => pr.1) =
      Except.ok (MatchResult.files ["a/b"]) ∧
    ¬("a/b" ∈ (["a\\b"] : List String)) :=
  ⟨rfl, by decide⟩

/-- Witness for C5 (amended) at a concrete input. -/
theorem c5_result_sublist_witness :
    (["a.js"] : List String).Sublist ["a.js", "b"] :=
  c5_result_sublist litT w0 ["a.js", "b"] "a.js" 0 ["a.js"]
    (makeRe litT w0 0 "a.js").world (by decide) rfl

/-- C6: with `matchBase` set, `isMatch` fails (with the basename TypeError of
the reference behavior, not a fallback to the full-path test) exactly on the
candidates from which the fixed basename-extraction pattern yields no match;
every other candidate completes the basename test and full-path fallback
without error. -/
theorem c6_matchBase_basename_error (T : Translator) (w : World) (fp : String)
    (pat : RePat) (oid : Nat)
    (hmb : truthy (getOpt (w.heap oid) "matchBase") = true) :
    ((isMatch T w fp pat oid).isOk = (fileExec fp).isSome) ∧
    (isMatch T w fp pat oid = Except.error JsError.typeError ↔ fileExec fp = none) := by
  cases pat with
  | re r =>
    simp only [isMatch, isMatchRe_eq, hmb, Bool.true_and]
    cases hfe : fileExec fp <;> simp [hfe, Except.isOk, Except.toBool]
  | glob g =>
    have hmb1 : truthy (getOpt ((makeRe T w oid g).world.heap oid) "matchBase") = true := by
      rw [(makeRe_heap_frame T w oid g).2 "matchBase" (by decide)]
      exact hmb
    simp only [isMatch, isMatchRe_eq, hmb1, Bool.true_and]
    cases hfe : fileExec fp <;> simp [hfe, Except.isOk, Except.toBool]

/-- Witness for C6 at concrete candidates: a candidate with a basename
completes, one without fails. -/
theorem c6_matchBase_basename_error_witness :
    (isMatch litT wMB "dir/a.js" (RePat.glob "a.js") 0).isOk = true ∧
    isMatch litT wMB "dir/" (RePat.glob "a.js") 0 = Except.error JsError.typeError := by
  constructor
  · rw [(c6_matchBase_basename_error litT wMB "dir/a.js" (RePat.glob "a.js") 0 (by decide)).1]
    decide
  · exact (c6_matchBase_basename_error litT wMB "dir/" (RePat.glob "a.js") 0
      (by decide)).2.mpr (by decide)

/-- A `match` call over an empty candidate list always succeeds and
contributes no strings (its result is `[]`, or the compiled pattern under
`nonull`, which `push.apply` spreads to nothing). -/
theorem matchFn_nil (T : Translator) (w : World) (p : String) (oid : Nat) :
    ∃ mr w1, matchFn T w (FilesArg.farr []) p oid = Except.ok (mr, w1) ∧ strsOf mr = [] := by
  simp only [matchFn, matchLoop_eq, arrayify, List.any_nil, Bool.and_false, List.map_nil,
    List.filter_nil, Bool.false_eq_true, if_false]
  refine ⟨_, _, rfl, ?_⟩
  unfold matchPost
  split
  · simp [strsOf, listDiff]
  · split <;> simp [strsOf]

/-- The pattern loop of `micromatch` over an empty candidate list leaves both
accumulators unchanged and never fails. -/
theorem mmLoop_nilfs (T : Translator) (oid : Nat) (ps : List String) :
    ∀ (w : World) (res neg : List String),
      ∃ w', mmLoop T [] oid w ps res neg = Except.ok ((res, neg), w') := by
  induction ps with
  | nil =>
    intro w res neg
    exact ⟨w, rfl⟩
  | cons g rest ih =>
    intro w res neg
    by_cases hb : firstCharIs '!' g
    · obtain ⟨mr, w1, hm, hs⟩ := matchFn_nil T w (strTail g) oid
      obtain ⟨w', hw⟩ := ih w1 res (neg ++ strsOf mr)
      rw [hs, List.append_nil] at hw
      exact ⟨w', by simp only [mmLoop, hb, if_true, hm, hs, List.append_nil, hw]⟩
    · obtain ⟨mr, w1, hm, hs⟩ := matchFn_nil T w g oid
      obtain ⟨w', hw⟩ := ih w1 (res ++ strsOf mr) neg
      rw [hs, List.append_nil] at hw
      exact ⟨w', by simp only [mmLoop, hb, if_false, hm, hs, List.append_nil, hw,
        Bool.false_eq_true]⟩

/-- C7 (amended): the Multi-Pattern Resolver returns `[]` when either argument
is absent or falsy, when the pattern list is empty, and when the candidate
list is empty — except that an empty (but truthy) candidate *array* combined
with a single string pattern under a truthy `nonull` returns the compiled
pattern instead (see the counterexample). -/
theorem c7_empty_inputs (T : Translator) (w : World) (oid : Nat)
    (files : Option (String ⊕ List String)) (pats : Option PatternsArg)
    (h : filesFalsy files = true ∨ patsFalsy pats = true ∨
         pats = some (PatternsArg.parr []) ∨
         (files = some (Sum.inr []) ∧
           ((∃ ps, pats = some (PatternsArg.parr ps)) ∨
            (∃ p, pats = some (PatternsArg.pstr p) ∧
              truthy (getOpt (w.heap oid) "nonull") = false)))) :
    (micromatch T w files pats oid).map (fun pr => pr.1) =
      Except.ok (MatchResult.files []) := by
  rcases h with h1 | h2 | h3 | ⟨hf, hp⟩
  · simp [micromatch, h1, Except.map]
  · simp [micromatch, h2, Except.map]
  · by_cases h1 : filesFalsy files = true
    · simp [micromatch, h1, Except.map]
    · subst h3
      simp [micromatch, h1, patsFalsy, mmLoop, listDiff, Except.map]
  · rcases hp with ⟨ps, hps⟩ | ⟨p, hps, hnn⟩
    · subst hf hps
      obtain ⟨w', hw⟩ := mmLoop_nilfs T oid ps w [] []
      simp [micromatch, filesFalsy, patsFalsy, hw, listDiff, Except.map]
    · subst hf hps
      have hnn1 : truthy (getOpt ((makeRe T w oid
          (negatePat (w.heap oid) p).2).world.heap oid) "nonull") = false := by
        rw [(makeRe_heap_frame T w oid (negatePat (w.heap oid) p).2).2 "nonull" (by decide)]
        exact hnn
      simp only [micromatch, filesFalsy, patsFalsy, Bool.or_self, Bool.false_eq_true,
        if_false, matchFn, arrayify, matchLoop_eq, List.any_nil, Bool.and_false,
        List.map_nil, List.filter_nil, hnn1, matchPost, Bool.false_and]
      split
      · simp [Except.map]
      · split <;> simp [Except.map, listDiff]

/-- Witness for C7 (amended) with absent candidates. -/
theorem c7_empty_inputs_witness :
    (micromatch litT w0 none (some (PatternsArg.pstr "whatever")) 0).map (fun pr => pr.1) =
      Except.ok (MatchResult.files []) :=
  c7_empty_inputs litT w0 0 none (some (PatternsArg.pstr "whatever")) (Or.inl rfl)

/-- C7 counterexample: with `nonull: true`, an empty candidate *array* (truthy
in JS) and a single string pattern do not return `[]` — the compiled pattern
itself is returned, refuting the claim for arbitrary options records. -/
theorem c7_counterexample :
    (micromatch litT wNonull (some (Sum.inr [])) (some (PatternsArg.pstr "whatever")) 0).map
        (fun pr => pr.1) =
      Except.ok (MatchResult.re ⟨"^(?:whatever)$", ""⟩) ∧
    MatchResult.re ⟨"^(?:whatever)$", ""⟩ ≠ MatchResult.files [] :=
  ⟨rfl, by decide⟩

/-- A list-level-negated contribution extends only the negative accumulator. -/
theorem posAcc_cons_true (xs : List String) (l : List (Bool × List String)) :
    posAcc ((true, xs) :: l) = posAcc l := by
  simp [posAcc]

/-- A positive contribution extends only the positive accumulator. -/
theorem posAcc_cons_false (xs : List String) (l : List (Bool × List String)) :
    posAcc ((false, xs) :: l) = xs ++ posAcc l := by
  simp [posAcc]

/-- Negative-accumulator analogue of `posAcc_cons_true`. -/
theorem negAcc_cons_true (xs : List String) (l : List (Bool × List String)) :
    negAcc ((true, xs) :: l) = xs ++ negAcc l := by
  simp [negAcc]

/-- Negative-accumulator analogue of `posAcc_cons_false`. -/
theorem negAcc_cons_false (xs : List String) (l : List (Bool × List String)) :
    negAcc ((false, xs) :: l) = negAcc l := by
  simp [negAcc]

/-- The interleaved pattern loop of `micromatch` computes exactly the two
accumulators described by the spec: the concatenated contributions of the
positive patterns and of the `!`-stripped negative patterns. -/
theorem mmLoop_eq_mmOuts (T : Translator) (fs : List String) (oid : Nat) :
    ∀ (ps : List String) (w : World) (res neg : List String),
      mmLoop T fs oid w ps res neg =
        (mmOuts T fs oid w ps).map
          (fun lw => ((res ++ posAcc lw.1, neg ++ negAcc lw.1), lw.2)) := by
  intro ps
  induction ps with
  | nil =>
    intro w res neg
    simp [mmLoop, mmOuts, posAcc, negAcc, Except.map]
  | cons g rest ih =>
    intro w res neg
    by_cases hb : firstCharIs '!' g
    · simp only [mmLoop, mmOuts, hb, if_true]
      cases hm : matchFn T w (FilesArg.farr fs) (strTail g) oid with
      | error e => simp [Except.map]
      | ok mw =>
        obtain ⟨mr, w1⟩ := mw
        dsimp only
        rw [ih]
        cases ho : mmOuts T fs oid w1 rest with
        | error e => simp [ho, Except.map]
        | ok lw =>
          simp [ho, Except.map, negAcc_cons_true, posAcc_cons_true, List.append_assoc]
    · simp only [mmLoop, mmOuts, hb, Bool.false_eq_true, if_false]
      cases hm : matchFn T w (FilesArg.farr fs) g oid with
      | error e => simp [Except.map]
      | ok mw =>
        obtain ⟨mr, w1⟩ := mw
        dsimp only
        rw [ih]
        cases ho : mmOuts T fs oid w1 rest with
        | error e => simp [ho, Except.map]
        | ok lw =>
          simp [ho, Except.map, posAcc_cons_false, negAcc_cons_false, List.append_assoc]

/-- C1: for a sequence of patterns, the Multi-Pattern Resolver returns exactly
the positive accumulator minus the negative accumulator, where each
`!`-prefixed pattern contributes its `match('!'-stripped)` output to the
negative accumulator and every other pattern its `match` output to the
positive one; the difference is multiset-insensitive — membership in the
negative accumulator excludes a candidate regardless of multiplicities. -/
theorem c1_resolver_set_difference (T : Translator) (w : World) (fs : List String)
    (ps : List String) (oid : Nat) :
    micromatch T w (some (Sum.inr fs)) (some (PatternsArg.parr ps)) oid =
      (mmOuts T fs oid w ps).map
        (fun lw => (MatchResult.files (listDiff (posAcc lw.1) (negAcc lw.1)), lw.2)) ∧
    (∀ (pos neg : List String) (x : String),
      x ∈ listDiff pos neg ↔ x ∈ pos ∧ ¬x ∈ neg) := by
  constructor
  · simp only [micromatch, filesFalsy, patsFalsy, Bool.or_self, Bool.false_eq_true, if_false]
    rw [mmLoop_eq_mmOuts]
    cases ho : mmOuts T fs oid w ps with
    | error e => simp [Except.map]
    | ok lw => simp [Except.map]
  · intro pos neg x
    unfold listDiff
    rw [List.mem_filter]
    constructor
    · rintro ⟨hx, hc⟩
      rw [Bool.not_eq_true'] at hc
      refine ⟨hx, fun hm => ?_⟩
      have helem := List.elem_iff.mpr hm
      rw [show (neg.elem x : Bool) = neg.contains x from rfl, hc] at helem
      cases helem
    · rintro ⟨hx, hm⟩
      refine ⟨hx, ?_⟩
      rw [Bool.not_eq_true']
      exact Bool.eq_false_iff.mpr (fun hc => hm (List.elem_iff.mp hc))

/-- C10 (amended): `makeRe` modifies no options object other than its own and,
of its own, only the `negated` field; the field's truthiness never drops from
true to false (though an absent field may be *set* to `false`); and whenever
the translator is actually invoked the produced matcher's wrap agrees with the
(post-call) `negated` flag.  A later cache *hit* can still return a matcher
compiled under different options, which need not be negated (see the
counterexample). -/
theorem c10_negated_mutation (T : Translator) (w : World) (oid : Nat) (glob : String) :
    (∀ j, j ≠ oid → (makeRe T w oid glob).world.heap j = w.heap j) ∧
    (∀ k, k ≠ "negated" →
      getOpt ((makeRe T w oid glob).world.heap oid) k = getOpt (w.heap oid) k) ∧
    (truthy (getOpt (w.heap oid) "negated") = true →
      truthy (getOpt ((makeRe T w oid glob).world.heap oid) "negated") = true) ∧
    ((makeRe T w oid glob).translated = true →
      ∃ frag, (makeRe T w oid glob).re.source =
        wrapGlob frag (truthy (getOpt ((makeRe T w oid glob).world.heap oid) "negated"))) := by
  refine ⟨(makeRe_heap_frame T w oid glob).1, (makeRe_heap_frame T w oid glob).2, ?_, ?_⟩
  · intro hneg
    cases h : (makeReStep w oid glob).hit with
    | some r => simpa [makeRe, h] using hneg
    | none =>
      simp only [makeRe, h, hset, if_pos rfl, getOpt_setProp_self]
      cases hv : getOpt (w.heap oid) "negated" with
      | none => rw [hv] at hneg; cases hneg
      | some v =>
        rw [hv] at hneg
        simp only [hneg, if_true]
        rw [getOpt_setProp_self]
        exact hneg
  · intro htr
    cases h : (makeReStep w oid glob).hit with
    | some r => simp [makeRe, h] at htr
    | none =>
      refine ⟨(T.translate (makeReStep w oid glob).glob2 (w.heap oid)).1, ?_⟩
      simp only [makeRe, h, hset, if_pos rfl, getOpt_setProp_self]
      simp [getOpt_setProp_self]

/-- Witness for C10 (amended) at a concrete compilation. -/
theorem c10_negated_mutation_witness :
    (makeRe litT w0 1 "!b").world.heap 2 = w0.heap 2 ∧
    getOpt ((makeRe litT w0 1 "!b").world.heap 1) "flags" = getOpt (w0.heap 1) "flags" :=
  ⟨(c10_negated_mutation litT w0 1 "!b").1 2 (by decide),
   (c10_negated_mutation litT w0 1 "!b").2.1 "flags" (by decide)⟩

/-- C10 counterexample: compiling `'!b'` with options object 1 sets its
`negated` to true; an interleaved compilation of `'g'` with options object 2
caches a non-negated matcher; the next compilation of `'g'` with options
object 1 — whose `negated` is still true — is a cache hit and returns the
non-negated matcher `^(?:g)$`, refuting "every later compilation with that
same options object produces a negated matcher". -/
theorem c10_counterexample :
    truthy (getOpt ((makeRe litT w0 1 "!b").world.heap 1) "negated") = true ∧
    (makeRe litT
        (makeRe litT (makeRe litT w0 1 "!b").world 2 "g").world 1 "g").re =
      ⟨"^(?:g)$", ""⟩ ∧
    (⟨"^(?:g)$", ""⟩ : CompiledRegex).source ≠ wrapGlob "g" true := by
  refine ⟨by decide, by decide, by decide⟩

/-- Membership in the set difference. -/
theorem mem_listDiff (pos neg : List String) (x : String) :
    x ∈ listDiff pos neg ↔ x ∈ pos ∧ ¬x ∈ neg := by
  unfold listDiff
  rw [List.mem_filter]
  constructor
  · rintro ⟨hx, hc⟩
    rw [Bool.not_eq_true'] at hc
    refine ⟨hx, fun hm => ?_⟩
    have helem := List.elem_iff.mpr hm
    rw [show (neg.elem x : Bool) = neg.contains x from rfl, hc] at helem
    cases helem
  · rintro ⟨hx, hm⟩
    refine ⟨hx, ?_⟩
    rw [Bool.not_eq_true']
    exact Bool.eq_false_iff.mpr (fun hc => hm (List.elem_iff.mp hc))

/-- The negation decision reads only the `nonegate` and `negate` options. -/
theorem negatePat_congr (o O : Opts) (p : String)
    (h1 : getOpt o "nonegate" = getOpt O "nonegate")
    (h2 : getOpt o "negate" = getOpt O "negate") :
    negatePat o p = negatePat O p := by
  unfold negatePat
  rw [h1, h2]

/-- The pure candidate test reads only the `matchBase` option. -/
theorem isMatchOkP_congr (T : Translator) (r : CompiledRegex) (o O : Opts) (fp : String)
    (h : getOpt o "matchBase" = getOpt O "matchBase") :
    isMatchOkP T r o fp = isMatchOkP T r O fp := by
  unfold isMatchOkP
  rw [h]

/-- Under the run invariant, the cache-maintenance phase keeps the object id,
normalizes the glob at most once, and only ever yields a hit equal to the pure
compilation of the requested glob. -/
theorem makeReStep_pure (f : String → String) (O : Opts) (oid : Nat) (w : World)
    (hI : RunInv f O oid w) (hU : ∀ g, f (uxy g) = f g) (glob : String) :
    ∃ G hit, makeReStep w oid glob = ⟨oid, G, G, hit⟩ ∧ f G = f glob ∧
      (∀ r, hit = some r → r = regexOfP f O glob) := by
  obtain ⟨hI1, hI2, hI3, hI4⟩ := hI
  rcases hI3 with hoc | hoc
  · cases hc : w.cache with
    | none =>
      refine ⟨glob, w.globRe, ?_, rfl, ?_⟩
      · simp [makeReStep, hoc, hc, equal_refl]
      · intro r hr
        obtain ⟨g, hg, _⟩ := hI4 r hr
        rw [hc] at hg
        cases hg
    | some c =>
      by_cases hg : c = glob
      · subst hg
        refine ⟨c, w.globRe, ?_, rfl, ?_⟩
        · simp [makeReStep, hoc, hc, equal_refl]
        · intro r hr
          obtain ⟨g, hgc, hre⟩ := hI4 r hr
          rw [hc] at hgc
          cases hgc
          exact hre
      · refine ⟨uxy glob, none, ?_, hU glob, by intro r hr; cases hr⟩
        simp [makeReStep, hoc, hc, equal_refl, hg, unixify]
  · cases hc : w.cache with
    | none =>
      refine ⟨glob, w.globRe, ?_, rfl, ?_⟩
      · simp [makeReStep, hoc, hc, equal_refl]
      · intro r hr
        obtain ⟨g, hg, _⟩ := hI4 r hr
        rw [hc] at hg
        cases hg
    | some c =>
      by_cases hg : c = glob
      · subst hg
        refine ⟨c, w.globRe, ?_, rfl, ?_⟩
        · simp [makeReStep, hoc, hc, equal_refl]
        · intro r hr
          obtain ⟨g, hgc, hre⟩ := hI4 r hr
          rw [hc] at hgc
          cases hgc
          exact hre
      · refine ⟨uxy glob, none, ?_, hU glob, by intro r hr; cases hr⟩
        simp [makeReStep, hoc, hc, equal_refl, hg, unixify]

/-- Reading the updated slot of a heap update. -/
theorem hset_self (h : Nat → Opts) (i : Nat) (o : Opts) : hset h i o i = o := by
  simp [hset]

/-- Under the run invariant and a pure translator, `makeRe` returns the pure
compilation of its glob and preserves the invariant. -/
theorem makeRe_pure (T : Translator) (f : String → String)
    (hT : ∀ g o, T.translate g o = (f g, false))
    (hU : ∀ g, f (uxy g) = f g)
    (O : Opts) (oid : Nat) (w : World) (hI : RunInv f O oid w) (glob : String) :
    (makeRe T w oid glob).re = regexOfP f O glob ∧
    RunInv f O oid (makeRe T w oid glob).world := by
  obtain ⟨G, hit, hstep, hfG, hhit⟩ := makeReStep_pure f O oid w hI hU glob
  obtain ⟨hI1, hI2, hI3, hI4⟩ := hI
  have hGlob : regexOfP f O G = regexOfP f O glob := by
    unfold regexOfP
    rw [hfG]
  cases hit with
  | some r =>
    have hre : r = regexOfP f O glob := hhit r rfl
    constructor
    · simp [makeRe, hstep, hre]
    · refine ⟨?_, ?_, Or.inr (by simp [makeRe, hstep]), ?_⟩
      · intro k hk
        simp only [makeRe, hstep]
        exact hI1 k hk
      · simp only [makeRe, hstep]
        exact hI2
      · intro r' hr'
        simp only [makeRe, hstep] at hr' ⊢
        refine ⟨G, rfl, ?_⟩
        rw [hGlob]
        cases hr'
        exact hre
  | none =>
    have hTr := hT G (w.heap oid)
    have hflags : getStr (w.heap oid) "flags" = getStr O "flags" := by
      unfold getStr
      rw [hI1 "flags" (by decide)]
    have hnocase : getOpt (w.heap oid) "nocase" = getOpt O "nocase" :=
      hI1 "nocase" (by decide)
    have hnegv : truthy (some (match getOpt (w.heap oid) "negated" with
        | some v => if truthy (some v) = true then v
                    else Val.vBool (T.translate G (w.heap oid)).2
        | none => Val.vBool (T.translate G (w.heap oid)).2)) =
        truthy (getOpt O "negated") := by
      rw [hTr]
      cases hv : getOpt (w.heap oid) "negated" with
      | none =>
        rw [hv] at hI2
        simpa [truthy] using hI2
      | some v =>
        rw [hv] at hI2
        by_cases htv : truthy (some v) = true
        · simpa [htv] using hI2
        · rw [Bool.not_eq_true] at htv
          simp only [htv, Bool.false_eq_true, if_false]
          rw [← hI2, htv]
          simp [truthy]
    constructor
    · simp only [makeRe, hstep]
      unfold regexOfP
      rw [hnegv, hTr, hfG, hflags, hnocase]
    · refine ⟨?_, ?_, Or.inr (by simp [makeRe, hstep]), ?_⟩
      · intro k hk
        simp only [makeRe, hstep, hset_self]
        rw [getOpt_setProp_ne _ _ _ _ hk]
        exact hI1 k hk
      · simp only [makeRe, hstep, hset_self]
        rw [getOpt_setProp_self]
        exact hnegv
      · intro r' hr'
        simp only [makeRe, hstep] at hr' ⊢
        refine ⟨G, rfl, ?_⟩
        rw [hGlob]
        cases hr'
        unfold regexOfP
        rw [hnegv, hTr, hfG, hflags, hnocase]

/-- Under the run invariant and a pure translator, a `match` call computes the
pure per-pattern result and preserves the invariant. -/
theorem matchFn_pure (T : Translator) (f : String → String)
    (hT : ∀ g o, T.translate g o = (f g, false))
    (hU : ∀ g, f (uxy g) = f g)
    (O : Opts) (oid : Nat) (fs : List String) (w : World) (hI : RunInv f O oid w)
    (p : String) :
    ∃ w', matchFn T w (FilesArg.farr fs) p oid =
        (pureMatchP T f O fs p).map (fun mr => (mr, w')) ∧
      RunInv f O oid w' := by
  have hnp : negatePat (w.heap oid) p = negatePat O p :=
    negatePat_congr _ _ _ (hI.1 "nonegate" (by decide)) (hI.1 "negate" (by decide))
  obtain ⟨hre, hIw⟩ := makeRe_pure T f hT hU O oid w hI (negatePat (w.heap oid) p).2
  refine ⟨(makeRe T w oid (negatePat (w.heap oid) p).2).world, ?_, hIw⟩
  have hmb : getOpt ((makeRe T w oid (negatePat (w.heap oid) p).2).world.heap oid)
      "matchBase" = getOpt O "matchBase" := hIw.1 "matchBase" (by decide)
  have hnn : getOpt ((makeRe T w oid (negatePat (w.heap oid) p).2).world.heap oid)
      "nonull" = getOpt O "nonull" := hIw.1 "nonull" (by decide)
  have hfil : ((fs.map uxy).filter (isMatchOkP T
      (makeRe T w oid (negatePat (w.heap oid) p).2).re
      ((makeRe T w oid (negatePat (w.heap oid) p).2).world.heap oid))) =
      ((fs.map uxy).filter (isMatchOkP T (regexOfP f O (negatePat O p).2) O)) := by
    apply List.filter_congr
    intro x _
    rw [isMatchOkP_congr T _ _ _ _ hmb, hre, hnp]
  rw [hnp] at hre hmb hnn hfil
  have key : matchLoop T (makeRe T w oid (negatePat O p).2).re
      ((makeRe T w oid (negatePat O p).2).world.heap oid) fs =
      if loopErr O fs then Except.error JsError.typeError
      else Except.ok ((fs.map uxy).filter
        (isMatchOkP T (regexOfP f O (negatePat O p).2) O)) := by
    rw [matchLoop_eq, hmb, hfil]
    rfl
  simp only [matchFn, arrayify]
  rw [hnp, key]
  by_cases hloop : loopErr O fs = true
  · rw [if_pos hloop]
    unfold pureMatchP
    rw [if_pos hloop]
    simp [Except.map]
  · rw [if_neg hloop]
    unfold pureMatchP
    rw [if_neg hloop]
    simp only [Except.map]
    rw [hre, hnn]
    rfl

/-- Under the run invariant and a pure translator, the per-pattern
contributions of the whole pattern list are computed purely. -/
theorem mmOuts_pure (T : Translator) (f : String → String)
    (hT : ∀ g o, T.translate g o = (f g, false))
    (hU : ∀ g, f (uxy g) = f g)
    (O : Opts) (oid : Nat) (fs : List String) :
    ∀ (ps : List String) (w : World), RunInv f O oid w →
      ∃ w', mmOuts T fs oid w ps = (pureOutsP T f O fs ps).map (fun l => (l, w')) := by
  intro ps
  induction ps with
  | nil =>
    intro w hI
    exact ⟨w, by simp [mmOuts, pureOutsP, Except.map]⟩
  | cons g rest ih =>
    intro w hI
    obtain ⟨w1, hm, hIn⟩ :=
      matchFn_pure T f hT hU O oid fs w hI (if firstCharIs '!' g then strTail g else g)
    cases hp : pureMatchP T f O fs (if firstCharIs '!' g then strTail g else g) with
    | error e =>
      rw [hp] at hm
      simp only [Except.map] at hm
      refine ⟨w1, ?_⟩
      simp only [mmOuts, pureOutsP, hm, hp, Except.map]
    | ok mr =>
      rw [hp] at hm
      simp only [Except.map] at hm
      obtain ⟨w2, hrest⟩ := ih w1 hIn
      refine ⟨w2, ?_⟩
      simp only [mmOuts, pureOutsP, hm, hp, hrest]
      cases hr2 : pureOutsP T f O fs rest with
      | error e2 => simp [Except.map]
      | ok l => simp [Except.map]

/-- The pure contributions list: an empty pattern list yields nothing, a
candidate-loop error aborts on the first pattern, and otherwise every pattern
contributes independently of evaluation order. -/
theorem pureOutsP_eq (T : Translator) (f : String → String) (O : Opts)
    (fs : List String) :
    ∀ ps : List String,
      pureOutsP T f O fs ps =
        if ps = [] then Except.ok []
        else if loopErr O fs then Except.error JsError.typeError
        else Except.ok (ps.map (fun g => (firstCharIs '!' g,
          strsOf (pureMatchOk T f O fs
            (if firstCharIs '!' g then strTail g else g))))) := by
  intro ps
  induction ps with
  | nil => simp [pureOutsP]
  | cons g rest ih =>
    simp only [pureOutsP, pureMatchP]
    by_cases hloop : loopErr O fs = true
    · simp [hloop]
    · simp only [hloop, Bool.false_eq_true, if_false]
      rw [ih]
      by_cases hr : rest = []
      · subst hr
        simp [Except.map]
      · simp [hr, hloop, Except.map]

/-- Membership in the positive accumulator of mapped contributions. -/
theorem posAcc_map_mem (ps : List String) (F : String → Bool × List String) (x : String) :
    x ∈ posAcc (ps.map F) ↔ ∃ g ∈ ps, (F g).1 = false ∧ x ∈ (F g).2 := by
  unfold posAcc
  rw [List.mem_flatten]
  constructor
  · rintro ⟨l, hl, hx⟩
    rw [List.mem_map] at hl
    obtain ⟨pr, hpr, rfl⟩ := hl
    rw [List.mem_filter] at hpr
    obtain ⟨hpr1, hpr2⟩ := hpr
    rw [List.mem_map] at hpr1
    obtain ⟨g, hg, rfl⟩ := hpr1
    exact ⟨g, hg, by simpa using hpr2, hx⟩
  · rintro ⟨g, hg, h1, hx⟩
    refine ⟨(F g).2, ?_, hx⟩
    rw [List.mem_map]
    refine ⟨F g, ?_, rfl⟩
    rw [List.mem_filter]
    exact ⟨List.mem_map.mpr ⟨g, hg, rfl⟩, by simp [h1]⟩

/-- Membership in the negative accumulator of mapped contributions. -/
theorem negAcc_map_mem (ps : List String) (F : String → Bool × List String) (x : String) :
    x ∈ negAcc (ps.map F) ↔ ∃ g ∈ ps, (F g).1 = true ∧ x ∈ (F g).2 := by
  unfold negAcc
  rw [List.mem_flatten]
  constructor
  · rintro ⟨l, hl, hx⟩
    rw [List.mem_map] at hl
    obtain ⟨pr, hpr, rfl⟩ := hl
    rw [List.mem_filter] at hpr
    obtain ⟨hpr1, hpr2⟩ := hpr
    rw [List.mem_map] at hpr1
    obtain ⟨g, hg, rfl⟩ := hpr1
    exact ⟨g, hg, hpr2, hx⟩
  · rintro ⟨g, hg, h1, hx⟩
    refine ⟨(F g).2, ?_, hx⟩
    rw [List.mem_map]
    refine ⟨F g, ?_, rfl⟩
    rw [List.mem_filter]
    exact ⟨List.mem_map.mpr ⟨g, hg, rfl⟩, h1⟩

/-- From a fresh cache state, a whole multi-pattern run under a pure
translator computes the pure accumulators. -/
theorem micromatch_pure (T : Translator) (f : String → String)
    (hT : ∀ g o, T.translate g o = (f g, false))
    (hU : ∀ g, f (uxy g) = f g)
    (w : World) (oid : Nat)
    (hw1 : w.optsCacheId = none) (hw3 : w.globRe = none)
    (fs ps : List String) :
    ∃ w', micromatch T w (some (Sum.inr fs)) (some (PatternsArg.parr ps)) oid =
      (pureOutsP T f (w.heap oid) fs ps).map
        (fun l => (MatchResult.files (listDiff (posAcc l) (negAcc l)), w')) := by
  have hI : RunInv f (w.heap oid) oid w :=
    ⟨fun k _ => rfl, rfl, Or.inl hw1, fun r hr => by rw [hw3] at hr; cases hr⟩
  obtain ⟨w', ho⟩ := mmOuts_pure T f hT hU (w.heap oid) oid fs ps w hI
  refine ⟨w', ?_⟩
  simp only [micromatch, filesFalsy, patsFalsy, Bool.or_self, Bool.false_eq_true, if_false]
  rw [mmLoop_eq_mmOuts, ho]
  cases pureOutsP T f (w.heap oid) fs ps with
  | error e => simp [Except.map]
  | ok l => simp [Except.map, posAcc, negAcc]

/-- C3 (amended): starting from a fresh cache state, and provided the
translator is pure — its fragment depends only on the glob, it is insensitive
to separator normalization of the glob, and it never reports syntax-level
negation — permuting the pattern sequence does not change the final set of
candidates returned by the Multi-Pattern Resolver (and both orders agree on
failure).  Without these provisos order can matter, because a
translator-reported negation mutates the shared `negated` option and flips
every later compilation (see the counterexample). -/
theorem c3_order_independence (T : Translator) (f : String → String)
    (hT : ∀ g o, T.translate g o = (f g, false))
    (hU : ∀ g, f (uxy g) = f g)
    (w : World) (oid : Nat)
    (hw1 : w.optsCacheId = none) (hw3 : w.globRe = none)
    (fs ps₁ ps₂ : List String) (hperm : ps₁.Perm ps₂) :
    (∃ e, micromatch T w (some (Sum.inr fs)) (some (PatternsArg.parr ps₁)) oid =
        Except.error e ∧
      micromatch T w (some (Sum.inr fs)) (some (PatternsArg.parr ps₂)) oid =
        Except.error e) ∨
    (∃ xs ys w₁ w₂,
      micromatch T w (some (Sum.inr fs)) (some (PatternsArg.parr ps₁)) oid =
        Except.ok (MatchResult.files xs, w₁) ∧
      micromatch T w (some (Sum.inr fs)) (some (PatternsArg.parr ps₂)) oid =
        Except.ok (MatchResult.files ys, w₂) ∧
      (∀ x, x ∈ xs ↔ x ∈ ys)) := by
  obtain ⟨w₁, h1⟩ := micromatch_pure T f hT hU w oid hw1 hw3 fs ps₁
  obtain ⟨w₂, h2⟩ := micromatch_pure T f hT hU w oid hw1 hw3 fs ps₂
  rw [pureOutsP_eq] at h1 h2
  by_cases hn1 : ps₁ = []
  · have hn2 : ps₂ = [] := ((hn1 ▸ hperm : ([] : List String).Perm ps₂)).symm.eq_nil
    subst hn1
    subst hn2
    simp only [if_pos rfl, Except.map] at h1 h2
    exact Or.inr ⟨_, _, _, _, h1, h2, fun x => Iff.rfl⟩
  · have hn2 : ps₂ ≠ [] := fun h => hn1 ((h ▸ hperm : ps₁.Perm []).eq_nil)
    rw [if_neg hn1] at h1
    rw [if_neg hn2] at h2
    by_cases hloop : loopErr (w.heap oid) fs = true
    · rw [if_pos hloop] at h1 h2
      simp only [Except.map] at h1 h2
      exact Or.inl ⟨JsError.typeError, h1, h2⟩
    · rw [if_neg hloop] at h1 h2
      simp only [Except.map] at h1 h2
      refine Or.inr ⟨_, _, _, _, h1, h2, fun x => ?_⟩
      have hex : ∀ P : String → Prop, (∃ g ∈ ps₁, P g) ↔ (∃ g ∈ ps₂, P g) := by
        intro P
        constructor
        · rintro ⟨g, hg, hP⟩
          exact ⟨g, hperm.mem_iff.mp hg, hP⟩
        · rintro ⟨g, hg, hP⟩
          exact ⟨g, hperm.mem_iff.mpr hg, hP⟩
      rw [mem_listDiff, mem_listDiff, posAcc_map_mem, posAcc_map_mem,
        negAcc_map_mem, negAcc_map_mem, hex (fun g => (firstCharIs '!' g) = false ∧
          x ∈ strsOf (pureMatchOk T f (w.heap oid) fs
            (if firstCharIs '!' g then strTail g else g))),
        hex (fun g => (firstCharIs '!' g) = true ∧
          x ∈ strsOf (pureMatchOk T f (w.heap oid) fs
            (if firstCharIs '!' g then strTail g else g)))]

/-- C3 counterexample: with `nonegate: true`, candidates `['a','x','y']` and
the pattern sequences `['x','!!y']` and `['!!y','x']` (permutations of each
other), compiling `'!y'` makes the translator report negation, which mutates
the shared `negated` option; every pattern compiled afterwards becomes
negated.  One order returns the set `{}`, the other `{'y'}`. -/
theorem c3_counterexample :
    (["x", "!!y"] : List String).Perm ["!!y", "x"] ∧
    (micromatch litT wNonegate (some (Sum.inr ["a", "x", "y"]))
        (some (PatternsArg.parr ["x", "!!y"])) 0).map (fun pr => pr.1) =
      Except.ok (MatchResult.files []) ∧
    (micromatch litT wNonegate (some (Sum.inr ["a", "x", "y"]))
        (some (PatternsArg.parr ["!!y", "x"])) 0).map (fun pr => pr.1) =
      Except.ok (MatchResult.files ["y"]) ∧
    ¬("y" ∈ ([] : List String)) :=
  ⟨by decide, rfl, rfl, by decide⟩

/-- Witness for C3 (amended) with a concrete pure translator and a concrete
permutation. -/
theorem c3_order_independence_witness :
    (∃ e, micromatch constT w0 (some (Sum.inr ["a"]))
        (some (PatternsArg.parr ["p", "q"])) 0 = Except.error e ∧
      micromatch constT w0 (some (Sum.inr ["a"]))
        (some (PatternsArg.parr ["q", "p"])) 0 = Except.error e) ∨
    (∃ xs ys w₁ w₂,
      micromatch constT w0 (some (Sum.inr ["a"]))
        (some (PatternsArg.parr ["p", "q"])) 0 = Except.ok (MatchResult.files xs, w₁) ∧
      micromatch constT w0 (some (Sum.inr ["a"]))
        (some (PatternsArg.parr ["q", "p"])) 0 = Except.ok (MatchResult.files ys, w₂) ∧
      (∀ x, x ∈ xs ↔ x ∈ ys)) :=
  c3_order_independence constT (fun _ => "Z") (fun _ _ => rfl) (fun _ => rfl)
    w0 0 rfl rfl ["a"] ["p", "q"] ["q", "p"] (by decide)
